import Mathlib

/-!
Verification of the `cut` loadable builtin (`builtins/src/cut.c`).

The C source is shallowly embedded below: lines are `List Char` where each
`Char` stands for one byte (all byte values 0..255 are valid code points, and
`Char.ofNat 0` models the NUL byte); C `int` values are `Int` with
`INT_MAX = 2147483647` kept as the explicit sentinel the source stores for
open-ended ranges; the output of each call is the exact byte sequence the C
code writes with `putchar`/`printf`.
-/

namespace Cut

/-- The value `INT_MAX`, the sentinel `parse_ranges` stores for an open-ended range. -/
def intMax : Int := 2147483647

/-- The NUL byte. -/
def nulChar : Char := Char.ofNat 0

/-- Embeds `struct range` from cut.c (`end` is a Lean keyword, rendered `stop`).
The `next` pointer becomes the surrounding `List`. -/
structure Range where
  start : Int
  stop : Int
deriving DecidableEq

/-- C `isspace` on the default locale, as consulted by `atoi`. -/
def isSpaceC (c : Char) : Bool :=
  c == ' ' || c == '\t' || c == '\n' || c == Char.ofNat 11 || c == Char.ofNat 12 || c == '\r'

/-- The digit-accumulation loop of C `atoi`: consume leading decimal digits,
folding them into `acc`, and stop at the first non-digit. -/
def digitsVal : List Char → Nat → Nat
  | [], acc => acc
  | c :: rest, acc => if c.isDigit then digitsVal rest (10 * acc + (c.toNat - 48)) else acc

/-- C `atoi`: skip leading whitespace, read an optional sign, then decimal
digits up to the first non-digit; no error reporting. -/
def atoi (s : List Char) : Int :=
  match s.dropWhile isSpaceC with
  | '-' :: rest => -(digitsVal rest 0 : Int)
  | '+' :: rest => (digitsVal rest 0 : Int)
  | t => (digitsVal t 0 : Int)

/-- The token loop of C `strtok`/`strtok_r` with a one-character delimiter set:
returns the maximal nonempty runs of non-delimiter characters, in order
(leading, trailing and consecutive delimiters yield no empty tokens).
`acc` holds the current run, reversed. -/
def strtokAux (p : Char → Bool) : List Char → List Char → List (List Char)
  | [], acc => if acc.isEmpty then [] else [acc.reverse]
  | c :: rest, acc =>
    if p c then
      if acc.isEmpty then strtokAux p rest [] else acc.reverse :: strtokAux p rest []
    else strtokAux p rest (c :: acc)

/-- Repeated `strtok` until it returns NULL. -/
def strtokSplit (p : Char → Bool) (l : List Char) : List (List Char) :=
  strtokAux p l []

/-- The per-token body of `parse_ranges` (cut.c lines 66-89): locate the first
`-` with `strchr` and dispatch on its position. -/
def parse_token (t : List Char) : Range :=
  let pre := t.takeWhile (fun c => !(c == '-'))
  match t.dropWhile (fun c => !(c == '-')) with
  | [] => { start := atoi t, stop := atoi t }
  | _ :: rest =>
    if pre.isEmpty then { start := 1, stop := atoi rest }
    else if rest.isEmpty then { start := atoi pre, stop := intMax }
    else { start := atoi pre, stop := atoi rest }

/-- Embeds `parse_ranges` (cut.c lines 60-103): split the selector on `,` with
`strtok` and parse each token; an empty token list yields NULL. -/
def parse_ranges (s : List Char) : Option (List Range) :=
  match strtokSplit (fun c => c == ',') s with
  | [] => none
  | toks => some (toks.map parse_token)

/-- Embeds `in_range` (cut.c lines 105-113): scan the range list in insertion order,
true iff `pos` lies in some inclusive interval. -/
def in_range (ranges : List Range) (pos : Int) : Bool :=
  ranges.any (fun r => decide (r.start ≤ pos ∧ pos ≤ r.stop))

/-- The C-string view of a byte buffer: everything before the first NUL.
All of `strchr`, `strdup`, `strtok_r` and `printf %s` in `cut_fields` see only
this prefix of the line. -/
def cstr (l : List Char) : List Char :=
  l.takeWhile (fun c => !(c == nulChar))

/-- The test `strchr(line, d) != NULL`: `strchr` searches the C string including its
terminator, so asking for NUL always succeeds. -/
def strchrFound (line : List Char) (d : Char) : Bool :=
  d == nulChar || (cstr line).contains d

/-- The newline strip at the top of `cut_fields` (lines 155-158): drop one
trailing `\n` if present. -/
def stripNewline (raw : List Char) : List Char :=
  if raw.getLast? == some '\n' then raw.dropLast else raw

/-- The scanning loop of `cut_bytes` (lines 129-137): walk the line with a
1-based position counter, stop at the first `\n` or NUL, and emit each byte
whose position is in the range set. -/
def cutBytesProj (ranges : List Range) : List Char → Int → List Char
  | [], _ => []
  | c :: rest, pos =>
    if c == '\n' || c == nulChar then []
    else (if in_range ranges pos then [c] else []) ++ cutBytesProj ranges rest (pos + 1)

/-- One iteration of the `cut_bytes` line loop: the projected bytes followed by
the unconditional `putchar(line_delim)` (line 138). -/
def cutBytesEmit (raw : List Char) (ranges : List Range) (term : Char) : List Char :=
  cutBytesProj ranges raw 1 ++ [term]

/-- The field-selection walk of `cut_fields` (lines 173-183): keep the tokens
whose 1-based field number is in the range set, in order. -/
def selectFields (ranges : List Range) : List (List Char) → Int → List (List Char)
  | [], _ => []
  | t :: ts, i =>
    if in_range ranges i then t :: selectFields ranges ts (i + 1)
    else selectFields ranges ts (i + 1)

/-- The `first_output` printing discipline: the delimiter is printed before
every selected field except the first. -/
def joinWith (d : Char) : List (List Char) → List Char
  | [] => []
  | [t] => t
  | t :: ts => t ++ d :: joinWith d ts

/-- One iteration of the `cut_fields` line loop (lines 154-189): the exact
bytes written for one raw input line. -/
def cutFieldsEmit (raw : List Char) (ranges : List Range) (d : Char)
    (suppress_no_delim : Bool) (term : Char) : List Char :=
  let line := stripNewline raw
  if strchrFound line d then
    let toks := strtokSplit (fun c => c == d) (cstr line)
    let sel := selectFields ranges toks 1
    if sel.isEmpty then [] else joinWith d sel ++ [term]
  else
    if suppress_no_delim then [] else cstr line ++ [term]

/-- The `getline` loop: split the input into chunks, each ending with the `\n`
that terminated it (kept), the last chunk possibly unterminated. `acc` holds
the current chunk, reversed. -/
def splitAux : List Char → List Char → List (List Char)
  | [], acc => if acc.isEmpty then [] else [acc.reverse]
  | c :: rest, acc =>
    if c == '\n' then (acc.reverse ++ ['\n']) :: splitAux rest []
    else splitAux rest (c :: acc)

/-- The sequence of lines `getline` yields on the given input bytes. -/
def splitLinesRaw (input : List Char) : List (List Char) :=
  splitAux input []

/-- The option state assembled by `cut_builtin`: `mode` is the C `int` holding
0 or the option character (98 = `b`, 99 = `c`, 102 = `f`). -/
structure CutConfig where
  mode : Nat
  ranges : List Range
  delimiter : Char
  suppress_no_delim : Bool
  line_delim : Char
deriving DecidableEq

/-- The per-line dispatch of `cut_builtin` (lines 283-287): field mode iff
`mode == 'f'`, otherwise the byte scanner (also for `-c`). -/
def lineEmit (cfg : CutConfig) (raw : List Char) : List Char :=
  if cfg.mode = 102 then
    cutFieldsEmit raw cfg.ranges cfg.delimiter cfg.suppress_no_delim cfg.line_delim
  else
    cutBytesEmit raw cfg.ranges cfg.line_delim

/-- All bytes written for one input stream: per-`getline`-line emission,
concatenated. -/
def streamEmit (cfg : CutConfig) (input : List Char) : List Char :=
  ((splitLinesRaw input).map (lineEmit cfg)).flatten

/-- The multi-file loop of `cut_builtin` (lines 266-295). A source is `some
content` if it opens (named file or `-`/stdin) and `none` if `fopen` fails;
a failed open reports one error and processing continues. Returns the bytes
written and the number of per-source failures. -/
def processSources (cfg : CutConfig) : List (Option (List Char)) → List Char × Nat
  | [] => ([], 0)
  | none :: rest =>
    let (out, fails) := processSources cfg rest
    (out, fails + 1)
  | some content :: rest =>
    let (out, fails) := processSources cfg rest
    (streamEmit cfg content ++ out, fails)

/-- One parsed command-line option with its argument, as `internal_getopt`
delivers them to the option loop. -/
inductive COpt where
  | b (arg : List Char)
  | c (arg : List Char)
  | d (arg : List Char)
  | f (arg : List Char)
  | s
  | z
deriving DecidableEq

/-- The mutable locals of `cut_builtin`'s option loop. -/
structure OptState where
  mode : Nat
  range_list : List Char
  delimiter : List Char
  suppress_no_delim : Bool
  line_delim : Char
deriving DecidableEq

/-- Initial values of the option-loop locals (cut.c lines 201-205). -/
def initOptState : OptState :=
  { mode := 0, range_list := [], delimiter := ['\t'],
    suppress_no_delim := false, line_delim := '\n' }

/-- The `internal_getopt` loop (lines 210-246): `none` means an error path
returning `EX_USAGE` was taken. -/
def optLoop : List COpt → OptState → Option OptState
  | [], st => some st
  | .b arg :: rest, st =>
    if st.mode ≠ 0 then none
    else optLoop rest { st with mode := 98, range_list := arg }
  | .c arg :: rest, st =>
    if st.mode ≠ 0 then none
    else optLoop rest { st with mode := 99, range_list := arg }
  | .d arg :: rest, st =>
    if arg.length ≠ 1 then none
    else optLoop rest { st with delimiter := arg }
  | .f arg :: rest, st =>
    if st.mode ≠ 0 then none
    else optLoop rest { st with mode := 102, range_list := arg }
  | .s :: rest, st => optLoop rest { st with suppress_no_delim := true }
  | .z :: rest, st => optLoop rest { st with line_delim := nulChar }

/-- Bash builtin exit statuses used by cut.c. -/
def EXECUTION_SUCCESS : Nat := 0

/-- Bash `EXECUTION_FAILURE`. -/
def EXECUTION_FAILURE : Nat := 1

/-- Bash `EX_USAGE`, the dedicated usage-error status. -/
def EX_USAGE : Nat := 258

/-- Embeds `cut_builtin` (lines 199-299): option loop, mode / range-list validation,
then the source loop. Returns the exit status and all bytes written to
standard output. -/
def cut_builtin (opts : List COpt) (srcs : List (Option (List Char))) : Nat × List Char :=
  match optLoop opts initOptState with
  | none => (EX_USAGE, [])
  | some st =>
    if st.mode = 0 then (EX_USAGE, [])
    else
      match parse_ranges st.range_list with
      | none => (EX_USAGE, [])
      | some ranges =>
        let cfg : CutConfig :=
          { mode := st.mode, ranges := ranges, delimiter := st.delimiter.headD '\t',
            suppress_no_delim := st.suppress_no_delim, line_delim := st.line_delim }
        (if (processSources cfg srcs).2 = 0 then EXECUTION_SUCCESS else EXECUTION_FAILURE,
         (processSources cfg srcs).1)

/-- Splitting on *every* delimiter occurrence, keeping empty fields — the
splitter described by the specification's words ("consecutive delimiters
produce empty fields"), written for comparison with the `strtok` splitter
the source actually uses. -/
def everySplit (p : Char → Bool) : List Char → List (List Char)
  | [] => [[]]
  | c :: rest =>
    if p c then [] :: everySplit p rest
    else (everySplit p rest).modifyHead (c :: ·)

/-- Range-filtered byte selection without the early stop — the value
`cutBytesProj` computes on a stop-free prefix. -/
def selectBytes (ranges : List Range) : List Char → Int → List Char
  | [], _ => []
  | c :: rest, pos =>
    (if in_range ranges pos then [c] else []) ++ selectBytes ranges rest (pos + 1)

/-- Does this option select an addressing mode (`-b`, `-c` or `-f`)? -/
def isModeFlag : COpt → Bool
  | .b _ => true
  | .c _ => true
  | .f _ => true
  | _ => false

/-- Is this a `-d` option whose argument is not exactly one character? -/
def isBadDelim : COpt → Bool
  | .d arg => decide (arg.length ≠ 1)
  | _ => false

/-- The byte substitution relating `-z` output to default output: newline
terminators become NUL terminators. -/
def termSwap (c : Char) : Char := if c == '\n' then nulChar else c

/-- The character for one decimal digit. -/
def digitChar (d : Nat) : Char := Char.ofNat (48 + d)

/-- The canonical decimal spelling of a natural number. -/
def natChars (n : Nat) : List Char :=
  if n = 0 then ['0'] else (Nat.digits 10 n).reverse.map digitChar

section HelperLemmas

theorem digitChar_facts : ∀ d, d < 10 →
    (digitChar d).isDigit = true ∧ (digitChar d).toNat - 48 = d ∧
    digitChar d ≠ '-' ∧ digitChar d ≠ '+' ∧ digitChar d ≠ ',' ∧
    isSpaceC (digitChar d) = false := by decide

theorem isDigit_not_space (c : Char) (h : c.isDigit = true) : isSpaceC c = false := by
  simp only [isSpaceC, Bool.or_eq_false_iff, beq_eq_false_iff_ne]
  refine ⟨⟨⟨⟨⟨fun h' => ?_, fun h' => ?_⟩, fun h' => ?_⟩, fun h' => ?_⟩, fun h' => ?_⟩,
    fun h' => ?_⟩ <;> (subst h'; exact absurd h (by decide))

theorem isDigit_ne_dash (c : Char) (h : c.isDigit = true) : c ≠ '-' := by
  intro h'; subst h'; exact absurd h (by decide)

theorem isDigit_ne_plus (c : Char) (h : c.isDigit = true) : c ≠ '+' := by
  intro h'; subst h'; exact absurd h (by decide)

theorem digitsVal_map (D : List Nat) (acc : Nat) (h : ∀ d ∈ D, d < 10) :
    digitsVal (D.map digitChar) acc = D.foldl (fun a d => 10 * a + d) acc := by
  induction D generalizing acc with
  | nil => rfl
  | cons d D ih =>
    have hd : d < 10 := h d (List.mem_cons_self d D)
    have hf := digitChar_facts d hd
    simp only [List.map_cons, digitsVal, hf.1, if_true, hf.2.1, List.foldl_cons]
    exact ih _ (fun x hx => h x (List.mem_cons_of_mem d hx))

theorem foldl_reverse_ofDigits (L : List Nat) :
    L.reverse.foldl (fun a d => 10 * a + d) 0 = Nat.ofDigits 10 L := by
  induction L with
  | nil => rfl
  | cons x L ih =>
    rw [List.reverse_cons, List.foldl_append, ih, Nat.ofDigits_cons]
    simp only [List.foldl_cons, List.foldl_nil]
    ring

theorem natChars_all_digit (n : Nat) : ∀ c ∈ natChars n, c.isDigit = true := by
  intro c hc
  unfold natChars at hc
  by_cases h0 : n = 0
  · simp only [h0, if_true] at hc
    simp only [List.mem_singleton] at hc
    subst hc; decide
  · simp only [h0, if_false, List.mem_map, List.mem_reverse] at hc
    obtain ⟨d, hd, rfl⟩ := hc
    exact (digitChar_facts d (Nat.digits_lt_base (by norm_num) hd)).1

theorem natChars_ne_nil (n : Nat) : natChars n ≠ [] := by
  unfold natChars
  by_cases h0 : n = 0
  · simp [h0]
  · simp only [h0, if_false, ne_eq, List.map_eq_nil_iff, List.reverse_eq_nil_iff]
    exact Nat.digits_ne_nil_iff_ne_zero.mpr h0

theorem atoi_of_head_digit (c : Char) (rest : List Char) (h : c.isDigit = true) :
    atoi (c :: rest) = (digitsVal (c :: rest) 0 : Int) := by
  unfold atoi
  rw [List.dropWhile_cons_of_neg (by simp [isDigit_not_space c h])]
  have hm : c ≠ '-' := isDigit_ne_dash c h
  have hp : c ≠ '+' := isDigit_ne_plus c h
  split
  · next heq => injection heq with h1 h2; exact absurd h1 hm
  · next heq => injection heq with h1 h2; exact absurd h1 hp
  · rfl

theorem atoi_natChars (n : Nat) : atoi (natChars n) = (n : Int) := by
  by_cases h0 : n = 0
  · subst h0; decide
  · have hne := natChars_ne_nil n
    obtain ⟨c, rest, hcr⟩ := List.exists_cons_of_ne_nil hne
    have hdg : c.isDigit = true := natChars_all_digit n c (by rw [hcr]; exact List.mem_cons_self c rest)
    rw [hcr, atoi_of_head_digit c rest hdg, ← hcr]
    unfold natChars
    rw [if_neg h0, digitsVal_map _ _ (fun d hd =>
      Nat.digits_lt_base (by norm_num) (List.mem_reverse.mp hd)),
      foldl_reverse_ofDigits, Nat.ofDigits_digits]

theorem takeWhile_append_of_all (p : Char → Bool) (xs ys : List Char)
    (h : ∀ x ∈ xs, p x = true) :
    (xs ++ ys).takeWhile p = xs ++ ys.takeWhile p := by
  induction xs with
  | nil => rfl
  | cons x xs ih =>
    rw [List.cons_append, List.takeWhile_cons_of_pos (h x (List.mem_cons_self x xs)),
      ih (fun a ha => h a (List.mem_cons_of_mem x ha)), List.cons_append]

theorem dropWhile_append_of_all (p : Char → Bool) (xs ys : List Char)
    (h : ∀ x ∈ xs, p x = true) :
    (xs ++ ys).dropWhile p = ys.dropWhile p := by
  induction xs with
  | nil => rfl
  | cons x xs ih =>
    rw [List.cons_append, List.dropWhile_cons_of_pos (h x (List.mem_cons_self x xs)),
      ih (fun a ha => h a (List.mem_cons_of_mem x ha))]

theorem natChars_nondash (n : Nat) : ∀ c ∈ natChars n, (!(c == '-')) = true := by
  intro c hc
  have := natChars_all_digit n c hc
  simp only [Bool.not_eq_true', beq_eq_false_iff_ne, ne_eq]
  exact isDigit_ne_dash c this

theorem natChars_isEmpty_false (n : Nat) : (natChars n).isEmpty = false := by
  rcases h : natChars n with _ | ⟨c, rest⟩
  · exact absurd h (natChars_ne_nil n)
  · rfl

theorem parse_token_plain (n : Nat) : parse_token (natChars n) = ⟨(n : Int), (n : Int)⟩ := by
  have hdrop : (natChars n).dropWhile (fun c => !(c == '-')) = [] := by
    have h := dropWhile_append_of_all (fun c => !(c == '-')) (natChars n) [] (natChars_nondash n)
    simpa using h
  simp [parse_token, hdrop, atoi_natChars]

theorem parse_token_open (n : Nat) : parse_token (natChars n ++ ['-']) = ⟨(n : Int), intMax⟩ := by
  have hdrop : (natChars n ++ ['-']).dropWhile (fun c => !(c == '-')) = ['-'] := by
    rw [dropWhile_append_of_all _ _ _ (natChars_nondash n)]; rfl
  have htake : (natChars n ++ ['-']).takeWhile (fun c => !(c == '-')) = natChars n := by
    rw [takeWhile_append_of_all _ _ _ (natChars_nondash n)]; simp
  simp [parse_token, hdrop, htake, natChars_isEmpty_false, atoi_natChars]

theorem parse_token_neg (m : Nat) : parse_token ('-' :: natChars m) = ⟨1, (m : Int)⟩ := by
  have hdrop : ('-' :: natChars m).dropWhile (fun c => !(c == '-')) = '-' :: natChars m :=
    List.dropWhile_cons_of_neg (by decide)
  have htake : ('-' :: natChars m).takeWhile (fun c => !(c == '-')) = [] :=
    List.takeWhile_cons_of_neg (by decide)
  simp [parse_token, hdrop, htake, atoi_natChars]

theorem parse_token_pair (n m : Nat) :
    parse_token (natChars n ++ '-' :: natChars m) = ⟨(n : Int), (m : Int)⟩ := by
  have hdrop : (natChars n ++ '-' :: natChars m).dropWhile (fun c => !(c == '-'))
      = '-' :: natChars m := by
    rw [dropWhile_append_of_all _ _ _ (natChars_nondash n)]
    exact List.dropWhile_cons_of_neg (by decide)
  have htake : (natChars n ++ '-' :: natChars m).takeWhile (fun c => !(c == '-'))
      = natChars n := by
    rw [takeWhile_append_of_all _ _ _ (natChars_nondash n)]
    rw [List.takeWhile_cons_of_neg (by decide), List.append_nil]
  simp [parse_token, hdrop, htake, natChars_isEmpty_false, natChars_ne_nil, atoi_natChars]

theorem in_range_iff (rs : List Range) (p : Int) :
    in_range rs p = true ↔ ∃ r ∈ rs, r.start ≤ p ∧ p ≤ r.stop := by
  simp [in_range, List.any_eq_true]

theorem everySplit_ne_nil (p : Char → Bool) (l : List Char) : everySplit p l ≠ [] := by
  induction l with
  | nil => simp [everySplit]
  | cons c rest ih =>
    simp only [everySplit]
    by_cases hc : p c
    · simp [hc]
    · simp only [hc, if_false]
      rcases h : everySplit p rest with _ | ⟨h1, t⟩
      · exact absurd h ih
      · simp

theorem strtokAux_eq (p : Char → Bool) (l : List Char) (acc : List Char) :
    strtokAux p l acc =
      ((everySplit p l).modifyHead (fun x => acc.reverse ++ x)).filter (fun f => !f.isEmpty) := by
  induction l generalizing acc with
  | nil =>
    rcases acc with _ | ⟨a, as⟩
    · simp [strtokAux, everySplit]
    · simp [strtokAux, everySplit]
  | cons c rest ih =>
    obtain ⟨h, t, hE⟩ : ∃ h t, everySplit p rest = h :: t := by
      rcases hE : everySplit p rest with _ | ⟨h, t⟩
      · exact absurd hE (everySplit_ne_nil p rest)
      · exact ⟨h, t, rfl⟩
    have hA : strtokAux p rest [] = (everySplit p rest).filter (fun f => !f.isEmpty) := by
      rw [ih [], hE]
      simp
    by_cases hc : p c
    · rcases acc with _ | ⟨a, as⟩
      · simp only [strtokAux, hc, if_true, List.isEmpty_nil, List.reverse_nil,
          everySplit, List.modifyHead_cons, List.nil_append]
        rw [hA]
        simp
      · simp only [strtokAux, hc, if_true, List.isEmpty_cons, Bool.false_eq_true,
          if_false, everySplit, List.modifyHead_cons, List.append_nil]
        rw [hA, List.filter_cons_of_pos (by simp)]
    · simp only [strtokAux, hc, Bool.false_eq_true, if_false, everySplit]
      rw [ih (c :: acc), hE]
      simp only [List.modifyHead_cons, List.reverse_cons, List.append_assoc,
        List.singleton_append]

theorem strtokSplit_eq_filter (p : Char → Bool) (l : List Char) :
    strtokSplit p l = (everySplit p l).filter (fun f => !f.isEmpty) := by
  rw [strtokSplit, strtokAux_eq]
  obtain ⟨h, t, hE⟩ : ∃ h t, everySplit p l = h :: t := by
    rcases hE : everySplit p l with _ | ⟨h, t⟩
    · exact absurd hE (everySplit_ne_nil p l)
    · exact ⟨h, t, rfl⟩
  rw [hE]
  simp

theorem cutBytesProj_append (rs : List Range) (c rest : List Char) (pos : Int)
    (h : ∀ x ∈ c, x ≠ '\n' ∧ x ≠ nulChar) :
    cutBytesProj rs (c ++ rest) pos
      = selectBytes rs c pos ++ cutBytesProj rs rest (pos + c.length) := by
  induction c generalizing pos with
  | nil => simp [selectBytes]
  | cons x xs ih =>
    have hx := h x (List.mem_cons_self x xs)
    have hb : (x == '\n' || x == nulChar) = false := by
      simp [hx.1, hx.2]
    simp only [List.cons_append, cutBytesProj, selectBytes, hb, Bool.false_eq_true, if_false,
      List.append_eq]
    rw [ih (pos + 1) (fun a ha => h a (List.mem_cons_of_mem x ha)), List.append_assoc]
    have harith : pos + 1 + (xs.length : Int) = pos + ((x :: xs).length : Int) := by
      simp [List.length_cons]
      ring
    rw [harith]

theorem cutBytesProj_stop (rs : List Range) (rest : List Char) (pos : Int) (s : Char)
    (hs : s = '\n' ∨ s = nulChar) : cutBytesProj rs (s :: rest) pos = [] := by
  rcases hs with rfl | rfl <;> simp [cutBytesProj]

theorem cutBytesProj_mem (rs : List Range) (raw : List Char) (pos : Int) :
    ∀ x ∈ cutBytesProj rs raw pos, x ≠ '\n' ∧ x ≠ nulChar := by
  induction raw generalizing pos with
  | nil => intro x hx; exact absurd hx (List.not_mem_nil x)
  | cons c rest ih =>
    intro x hx
    by_cases hb : (c == '\n' || c == nulChar) = true
    · rw [cutBytesProj, if_pos hb] at hx
      exact absurd hx (List.not_mem_nil x)
    · rw [cutBytesProj, if_neg hb, List.mem_append] at hx
      rcases hx with hx | hx
      · have hc : c ≠ '\n' ∧ c ≠ nulChar := by
          simp only [Bool.or_eq_true, beq_iff_eq] at hb
          exact ⟨fun h => hb (Or.inl h), fun h => hb (Or.inr h)⟩
        rcases hin : in_range rs pos with _ | _ <;> rw [hin] at hx
        · simp at hx
        · simp only [if_true, List.mem_singleton] at hx
          exact hx ▸ hc
      · exact ih (pos + 1) x hx

theorem oneDash_ranges : (parse_ranges ['1', '-']).getD [] = [⟨1, intMax⟩] := by decide

theorem selectBytes_full (c : List Char) (pos : Int) (h1 : 1 ≤ pos)
    (h2 : pos + (c.length : Int) ≤ intMax + 1) :
    selectBytes ((parse_ranges ['1', '-']).getD []) c pos = c := by
  induction c generalizing pos with
  | nil => rfl
  | cons x xs ih =>
    have hin : in_range ((parse_ranges ['1', '-']).getD []) pos = true := by
      rw [oneDash_ranges]
      simp only [in_range, List.any_cons, List.any_nil, Bool.or_false, decide_eq_true_eq]
      simp only [List.length_cons] at h2
      unfold intMax at h2 ⊢
      push_cast at h2
      omega
    simp only [selectBytes, hin, if_true, List.singleton_append]
    have h2' : pos + 1 + (xs.length : Int) ≤ intMax + 1 := by
      simp only [List.length_cons] at h2
      push_cast at h2
      omega
    rw [ih (pos + 1) (by omega) h2']

theorem takeWhile_all (p : Char → Bool) (l : List Char) (h : ∀ x ∈ l, p x = true) :
    l.takeWhile p = l := by
  induction l with
  | nil => rfl
  | cons x xs ih =>
    rw [List.takeWhile_cons_of_pos (h x (List.mem_cons_self x xs)),
      ih (fun a ha => h a (List.mem_cons_of_mem x ha))]

theorem mem_of_mem_takeWhile (p : Char → Bool) (l : List Char) (x : Char)
    (h : x ∈ l.takeWhile p) : x ∈ l := by
  induction l with
  | nil => exact absurd h (List.not_mem_nil x)
  | cons a as ih =>
    by_cases hp : p a = true
    · rw [List.takeWhile_cons_of_pos hp] at h
      rcases List.mem_cons.mp h with rfl | h
      · exact List.mem_cons_self x as
      · exact List.mem_cons_of_mem a (ih h)
    · rw [List.takeWhile_cons_of_neg hp] at h
      exact absurd h (List.not_mem_nil x)

theorem cstr_of_no_nul (l : List Char) (h : nulChar ∉ l) : cstr l = l := by
  refine takeWhile_all _ l (fun x hx => ?_)
  simp only [Bool.not_eq_true', beq_eq_false_iff_ne, ne_eq]
  intro hxe
  exact h (hxe ▸ hx)

theorem stripNewline_of_no_newline (l : List Char) (h : '\n' ∉ l) : stripNewline l = l := by
  unfold stripNewline
  rcases hg : l.getLast? with _ | c
  · simp
  · have hc : c ∈ l := List.mem_of_getLast?_eq_some hg
    have : ¬(c = '\n') := fun he => h (he ▸ hc)
    simp [this]

theorem stripNewline_concat_newline (l : List Char) : stripNewline (l ++ ['\n']) = l := by
  unfold stripNewline
  rw [List.getLast?_concat]
  simp

theorem strchrFound_false_of_not_mem (l : List Char) (d : Char) (hd : d ≠ nulChar)
    (h : d ∉ l) : strchrFound l d = false := by
  unfold strchrFound
  have h1 : (d == nulChar) = false := by simp [hd]
  have h2 : (cstr l).contains d = false := by
    rcases hc : (cstr l).contains d with _ | _
    · rfl
    · simp only [List.contains_eq_any_beq, List.any_eq_true, beq_iff_eq] at hc
      obtain ⟨a, ha, hda⟩ := hc
      exact absurd (mem_of_mem_takeWhile _ l d (hda ▸ ha)) h
  rw [h1, h2]
  rfl

theorem selectFields_eq_nil (rs : List Range) (toks : List (List Char)) (start : Int)
    (h : ∀ i : Nat, i < toks.length → in_range rs (start + i) = false) :
    selectFields rs toks start = [] := by
  induction toks generalizing start with
  | nil => rfl
  | cons t ts ih =>
    have h0 : in_range rs start = false := by
      have := h 0 (by simp)
      simpa using this
    rw [selectFields, h0]
    simp only [Bool.false_eq_true, if_false]
    refine ih (start + 1) (fun i hi => ?_)
    have := h (i + 1) (by simp [List.length_cons]; omega)
    push_cast at this ⊢
    have harith : start + 1 + (i : Int) = start + ((i : Int) + 1) := by ring
    rw [harith]
    exact this

theorem mem_stripNewline (l : List Char) (x : Char) (h : x ∈ stripNewline l) : x ∈ l := by
  unfold stripNewline at h
  split at h
  · exact List.dropLast_subset l h
  · exact h

theorem splitAux_flatten (input : List Char) (acc : List Char) :
    (splitAux input acc).flatten = acc.reverse ++ input := by
  induction input generalizing acc with
  | nil =>
    rcases acc with _ | ⟨a, as⟩
    · simp [splitAux]
    · simp [splitAux]
  | cons c rest ih =>
    by_cases hc : (c == '\n') = true
    · have hc' : c = '\n' := by simpa using hc
      subst hc'
      simp [splitAux, ih]
    · simp only [splitAux, hc, Bool.false_eq_true, if_false]
      rw [ih (c :: acc)]
      simp

theorem splitAux_newline_free (input : List Char) (acc : List Char)
    (hacc : ∀ x ∈ acc, x ≠ '\n') :
    ∀ l ∈ splitAux input acc, '\n' ∉ stripNewline l := by
  induction input generalizing acc with
  | nil =>
    intro l hl
    rcases acc with _ | ⟨a, as⟩
    · simp [splitAux] at hl
    · simp only [splitAux, List.isEmpty_cons, Bool.false_eq_true, if_false,
        List.mem_singleton] at hl
      subst hl
      intro hmem
      have hx := mem_stripNewline _ _ hmem
      exact hacc '\n' (List.mem_reverse.mp hx) rfl
  | cons c rest ih =>
    intro l hl
    by_cases hc : (c == '\n') = true
    · have hc' : c = '\n' := by simpa using hc
      subst hc'
      simp only [splitAux, if_pos (show (('\n' : Char) == '\n') = true by decide)] at hl
      rcases List.mem_cons.mp hl with rfl | hl
      · rw [stripNewline_concat_newline]
        intro hmem
        exact hacc '\n' (List.mem_reverse.mp hmem) rfl
      · exact ih [] (by simp) l hl
    · simp only [splitAux, hc, Bool.false_eq_true, if_false] at hl
      refine ih (c :: acc) (fun x hx => ?_) l hl
      rcases List.mem_cons.mp hx with rfl | hx
      · simpa using hc
      · exact hacc x hx

theorem everySplit_chars (p : Char → Bool) (l : List Char) :
    ∀ t ∈ everySplit p l, ∀ x ∈ t, x ∈ l := by
  induction l with
  | nil =>
    intro t ht x hx
    simp only [everySplit, List.mem_singleton] at ht
    subst ht
    exact absurd hx (List.not_mem_nil x)
  | cons c rest ih =>
    intro t ht x hx
    by_cases hc : p c = true
    · simp only [everySplit, hc, if_true] at ht
      rcases List.mem_cons.mp ht with rfl | ht
      · exact absurd hx (List.not_mem_nil x)
      · exact List.mem_cons_of_mem c (ih t ht x hx)
    · obtain ⟨h, tl, hE⟩ : ∃ h tl, everySplit p rest = h :: tl := by
        rcases hE : everySplit p rest with _ | ⟨h, tl⟩
        · exact absurd hE (everySplit_ne_nil p rest)
        · exact ⟨h, tl, rfl⟩
      simp only [everySplit, hc, Bool.false_eq_true, if_false, hE,
        List.modifyHead_cons] at ht
      rcases List.mem_cons.mp ht with rfl | ht
      · rcases List.mem_cons.mp hx with rfl | hx
        · exact List.mem_cons_self x rest
        · exact List.mem_cons_of_mem c (ih h (hE ▸ List.mem_cons_self h tl) x hx)
      · exact List.mem_cons_of_mem c (ih t (hE ▸ List.mem_cons_of_mem h ht) x hx)

theorem strtokSplit_chars (p : Char → Bool) (l : List Char) :
    ∀ t ∈ strtokSplit p l, ∀ x ∈ t, x ∈ l := by
  intro t ht x hx
  rw [strtokSplit_eq_filter] at ht
  exact everySplit_chars p l t (List.mem_of_mem_filter ht) x hx

theorem selectFields_subset (rs : List Range) (toks : List (List Char)) (i : Int) :
    ∀ t ∈ selectFields rs toks i, t ∈ toks := by
  induction toks generalizing i with
  | nil => intro t ht; exact absurd ht (List.not_mem_nil t)
  | cons hd tl ih =>
    intro t ht
    rw [selectFields] at ht
    by_cases hin : in_range rs i = true
    · rw [if_pos hin] at ht
      rcases List.mem_cons.mp ht with rfl | ht
      · exact List.mem_cons_self t tl
      · exact List.mem_cons_of_mem hd (ih (i + 1) t ht)
    · rw [if_neg hin] at ht
      exact List.mem_cons_of_mem hd (ih (i + 1) t ht)

theorem joinWith_mem (d : Char) (sel : List (List Char)) (x : Char)
    (h : x ∈ joinWith d sel) : x = d ∨ ∃ t ∈ sel, x ∈ t := by
  induction sel with
  | nil => exact absurd h (List.not_mem_nil x)
  | cons t ts ih =>
    rcases ts with _ | ⟨t2, ts2⟩
    · exact Or.inr ⟨t, List.mem_cons_self t [], h⟩
    · have hj : joinWith d (t :: t2 :: ts2) = t ++ d :: joinWith d (t2 :: ts2) := rfl
      rw [hj] at h
      rcases List.mem_append.mp h with h | h
      · exact Or.inr ⟨t, List.mem_cons_self t (t2 :: ts2), h⟩
      · rcases List.mem_cons.mp h with rfl | h
        · exact Or.inl rfl
        · rcases ih h with h | ⟨u, hu, hx⟩
          · exact Or.inl h
          · exact Or.inr ⟨u, List.mem_cons_of_mem t hu, hx⟩

theorem map_termSwap_id (r : List Char) (h : '\n' ∉ r) : r.map termSwap = r := by
  induction r with
  | nil => rfl
  | cons a as ih =>
    have ha : a ≠ '\n' := fun he => h (he ▸ List.mem_cons_self a as)
    rw [List.map_cons, ih (fun hm => h (List.mem_cons_of_mem a hm))]
    unfold termSwap
    rw [if_neg (by simp [ha])]

theorem contains_true_mem (l : List Char) (d : Char) (h : l.contains d = true) : d ∈ l := by
  simp only [List.contains_eq_any_beq, List.any_eq_true, beq_iff_eq] at h
  obtain ⟨a, ha, hda⟩ := h
  exact hda ▸ ha

theorem fieldContent_no_newline (line : List Char) (rs : List Range) (d : Char)
    (hline : '\n' ∉ stripNewline line)
    (hfound : strchrFound (stripNewline line) d = true) :
    '\n' ∉ joinWith d
      (selectFields rs (strtokSplit (fun c => c == d) (cstr (stripNewline line))) 1) := by
  intro hmem
  have hcstr : ∀ x : Char, x ∈ cstr (stripNewline line) → x ≠ '\n' := by
    intro x hx he
    exact hline (he ▸ mem_of_mem_takeWhile _ _ x hx)
  rcases joinWith_mem d _ '\n' hmem with hd | ⟨t, ht, hx⟩
  · subst hd
    unfold strchrFound at hfound
    rcases Bool.or_eq_true_iff.mp hfound with h1 | h2
    · exact absurd (by simpa using h1) (by decide : ¬('\n' = nulChar))
    · exact hcstr '\n' (contains_true_mem _ _ h2) rfl
  · have := strtokSplit_chars (fun c => c == d) (cstr (stripNewline line)) t
      (selectFields_subset rs _ 1 t ht) '\n' hx
    exact hcstr '\n' this rfl

theorem cstr_no_newline (raw : List Char) (hnl : '\n' ∉ stripNewline raw) :
    '\n' ∉ cstr (stripNewline raw) :=
  fun hmem => hnl (mem_of_mem_takeWhile _ _ '\n' hmem)

theorem lineEmit_termSwap (mode : Nat) (rs : List Range) (d : Char) (supp : Bool)
    (raw : List Char) (hnl : '\n' ∉ stripNewline raw) :
    lineEmit ⟨mode, rs, d, supp, nulChar⟩ raw
      = (lineEmit ⟨mode, rs, d, supp, '\n'⟩ raw).map termSwap := by
  unfold lineEmit
  dsimp only
  by_cases hm : mode = 102
  · rw [if_pos hm, if_pos hm]
    simp only [cutFieldsEmit]
    rcases hf : strchrFound (stripNewline raw) d with _ | _
    · simp only [Bool.false_eq_true, if_false]
      rcases supp with _ | _
      · simp only [Bool.false_eq_true, if_false, List.map_append,
          map_termSwap_id _ (cstr_no_newline raw hnl)]
        rfl
      · simp
    · simp only [if_true]
      rcases hs : (selectFields rs
          (strtokSplit (fun c => c == d) (cstr (stripNewline raw))) 1).isEmpty with _ | _
      · simp only [Bool.false_eq_true, if_false, List.map_append,
          map_termSwap_id _ (fieldContent_no_newline raw rs d hnl hf)]
        rfl
      · simp
  · rw [if_neg hm, if_neg hm]
    unfold cutBytesEmit
    have hproj : '\n' ∉ cutBytesProj rs raw 1 :=
      fun hmem => (cutBytesProj_mem rs raw 1 '\n' hmem).1 rfl
    rw [List.map_append, map_termSwap_id _ hproj]
    rfl

theorem lineEmit_z_shape (mode : Nat) (rs : List Range) (d : Char) (supp : Bool)
    (raw : List Char) (hnl : '\n' ∉ stripNewline raw) :
    lineEmit ⟨mode, rs, d, supp, nulChar⟩ raw = [] ∨
    ∃ r, lineEmit ⟨mode, rs, d, supp, nulChar⟩ raw = r ++ [nulChar] ∧ '\n' ∉ r := by
  unfold lineEmit
  dsimp only
  by_cases hm : mode = 102
  · rw [if_pos hm]
    simp only [cutFieldsEmit]
    rcases hf : strchrFound (stripNewline raw) d with _ | _
    · simp only [Bool.false_eq_true, if_false]
      rcases supp with _ | _
      · exact Or.inr ⟨cstr (stripNewline raw), by simp, cstr_no_newline raw hnl⟩
      · exact Or.inl (by simp)
    · simp only [if_true]
      rcases hs : (selectFields rs
          (strtokSplit (fun c => c == d) (cstr (stripNewline raw))) 1).isEmpty with _ | _
      · refine Or.inr ⟨joinWith d (selectFields rs
          (strtokSplit (fun c => c == d) (cstr (stripNewline raw))) 1), by simp [hs], ?_⟩
        exact fieldContent_no_newline raw rs d hnl hf
      · exact Or.inl (by simp [hs])
  · rw [if_neg hm]
    exact Or.inr ⟨cutBytesProj rs raw 1, rfl,
      fun hmem => (cutBytesProj_mem rs raw 1 '\n' hmem).1 rfl⟩

theorem processSources_spec (cfg : CutConfig) (srcs : List (Option (List Char))) :
    processSources cfg srcs
      = (((srcs.filterMap id).map (streamEmit cfg)).flatten,
         srcs.countP (fun s => s.isNone)) := by
  induction srcs with
  | nil => rfl
  | cons s rest ih =>
    rcases s with _ | content
    · simp [processSources, ih, List.countP_cons]
    · simp [processSources, ih, List.countP_cons]

theorem optLoop_bad_delim (opts : List COpt) (st : OptState) (o : COpt)
    (hmem : o ∈ opts) (hbad : isBadDelim o = true) : optLoop opts st = none := by
  induction opts generalizing st with
  | nil => exact absurd hmem (List.not_mem_nil o)
  | cons a rest ih =>
    rcases List.mem_cons.mp hmem with rfl | hmem2
    · rcases o with arg | arg | arg | arg | _ | _ <;> simp [isBadDelim] at hbad
      rw [optLoop, if_pos hbad]
    · rcases a with arg | arg | arg | arg | _ | _
      · rw [optLoop]
        split
        · rfl
        · exact ih _ hmem2
      · rw [optLoop]
        split
        · rfl
        · exact ih _ hmem2
      · rw [optLoop]
        split
        · rfl
        · exact ih _ hmem2
      · rw [optLoop]
        split
        · rfl
        · exact ih _ hmem2
      · rw [optLoop]
        exact ih _ hmem2
      · rw [optLoop]
        exact ih _ hmem2

theorem optLoop_mode_err (opts : List COpt) (st : OptState)
    (h : (st.mode = 0 ∧ 2 ≤ opts.countP isModeFlag) ∨
         (st.mode ≠ 0 ∧ 1 ≤ opts.countP isModeFlag)) :
    optLoop opts st = none := by
  induction opts generalizing st with
  | nil =>
    rcases h with ⟨_, h2⟩ | ⟨_, h2⟩ <;> simp [List.countP_nil] at h2
  | cons a rest ih =>
    rcases a with arg | arg | arg | arg | _ | _
    · rw [optLoop]
      by_cases hm : st.mode = 0
      · rw [if_neg (by simp [hm])]
        refine ih _ (Or.inr ⟨by simp, ?_⟩)
        rcases h with ⟨_, h2⟩ | ⟨hm', _⟩
        · have : rest.countP isModeFlag + 1 = (COpt.b arg :: rest).countP isModeFlag := by
            simp [List.countP_cons, isModeFlag]
          omega
        · exact absurd hm hm'
      · rw [if_pos hm]
    · rw [optLoop]
      by_cases hm : st.mode = 0
      · rw [if_neg (by simp [hm])]
        refine ih _ (Or.inr ⟨by simp, ?_⟩)
        rcases h with ⟨_, h2⟩ | ⟨hm', _⟩
        · have : rest.countP isModeFlag + 1 = (COpt.c arg :: rest).countP isModeFlag := by
            simp [List.countP_cons, isModeFlag]
          omega
        · exact absurd hm hm'
      · rw [if_pos hm]
    · rw [optLoop]
      split
      · rfl
      · refine ih _ ?_
        have hcnt : (COpt.d arg :: rest).countP isModeFlag = rest.countP isModeFlag := by
          simp [List.countP_cons, isModeFlag]
        rcases h with ⟨hm, h2⟩ | ⟨hm, h2⟩
        · exact Or.inl ⟨hm, by omega⟩
        · exact Or.inr ⟨hm, by omega⟩
    · rw [optLoop]
      by_cases hm : st.mode = 0
      · rw [if_neg (by simp [hm])]
        refine ih _ (Or.inr ⟨by simp, ?_⟩)
        rcases h with ⟨_, h2⟩ | ⟨hm', _⟩
        · have : rest.countP isModeFlag + 1 = (COpt.f arg :: rest).countP isModeFlag := by
            simp [List.countP_cons, isModeFlag]
          omega
        · exact absurd hm hm'
      · rw [if_pos hm]
    · rw [optLoop]
      have hcnt : (COpt.s :: rest).countP isModeFlag = rest.countP isModeFlag := by
        simp [List.countP_cons, isModeFlag]
      refine ih _ ?_
      rcases h with ⟨hm, h2⟩ | ⟨hm, h2⟩
      · exact Or.inl ⟨hm, by omega⟩
      · exact Or.inr ⟨hm, by omega⟩
    · rw [optLoop]
      have hcnt : (COpt.z :: rest).countP isModeFlag = rest.countP isModeFlag := by
        simp [List.countP_cons, isModeFlag]
      refine ih _ ?_
      rcases h with ⟨hm, h2⟩ | ⟨hm, h2⟩
      · exact Or.inl ⟨hm, by omega⟩
      · exact Or.inr ⟨hm, by omega⟩

theorem optLoop_no_mode (opts : List COpt) (st : OptState)
    (h : opts.countP isModeFlag = 0) :
    optLoop opts st = none ∨
    ∃ st', optLoop opts st = some st' ∧ st'.mode = st.mode := by
  induction opts generalizing st with
  | nil => exact Or.inr ⟨st, rfl, rfl⟩
  | cons a rest ih =>
    rcases a with arg | arg | arg | arg | _ | _
    · exact absurd h (by simp [List.countP_cons, isModeFlag])
    · exact absurd h (by simp [List.countP_cons, isModeFlag])
    · rw [optLoop]
      split
      · exact Or.inl rfl
      · have hrest : rest.countP isModeFlag = 0 := by
          simpa [List.countP_cons, isModeFlag] using h
        rcases ih _ hrest with hn | ⟨st', hs, hm⟩
        · exact Or.inl hn
        · exact Or.inr ⟨st', hs, hm⟩
    · exact absurd h (by simp [List.countP_cons, isModeFlag])
    · rw [optLoop]
      have hrest : rest.countP isModeFlag = 0 := by
        simpa [List.countP_cons, isModeFlag] using h
      rcases ih { st with suppress_no_delim := true } hrest with hn | ⟨st', hs, hm⟩
      · exact Or.inl hn
      · exact Or.inr ⟨st', hs, hm⟩
    · rw [optLoop]
      have hrest : rest.countP isModeFlag = 0 := by
        simpa [List.countP_cons, isModeFlag] using h
      rcases ih { st with line_delim := nulChar } hrest with hn | ⟨st', hs, hm⟩
      · exact Or.inl hn
      · exact Or.inr ⟨st', hs, hm⟩

theorem cut_builtin_status (opts : List COpt) (srcs : List (Option (List Char))) :
    (cut_builtin opts srcs).1 = EX_USAGE ∨
    (cut_builtin opts srcs).1
      = (if srcs.countP (fun s => s.isNone) = 0 then EXECUTION_SUCCESS
         else EXECUTION_FAILURE) := by
  unfold cut_builtin
  rcases optLoop opts initOptState with _ | st
  · exact Or.inl rfl
  · dsimp only
    by_cases hm : st.mode = 0
    · rw [if_pos hm]
      exact Or.inl rfl
    · rw [if_neg hm]
      rcases parse_ranges st.range_list with _ | ranges
      · exact Or.inl rfl
      · right
        simp [processSources_spec]

end HelperLemmas

/-- Claim C1 — counterexample. The claim says that in field mode, splitting is
on every delimiter occurrence with no collapsing, so `a,,b` with delimiter `,`
has three fields `a`, ``, `b`. The source splits with `strtok_r`, which
collapses consecutive delimiters: `a,,b` yields two fields `a`, `b`, and with
selector `2` the emitted line is `b`, not the empty second field the claim
requires. -/
theorem c1_counterexample :
    strtokSplit (fun c => c == ',') ['a', ',', ',', 'b'] = [['a'], ['b']] ∧
    strtokSplit (fun c => c == ',') ['a', ',', ',', 'b'] ≠ [['a'], [], ['b']] ∧
    cutFieldsEmit ['a', ',', ',', 'b'] ((parse_ranges ['2']).getD []) ',' false '\n'
      = ['b', '\n'] := by
  exact ⟨by decide, by decide, by decide⟩

/-- Claim C4: selector parsing followed by membership implements the interval
semantics of the token grammar — a token `N` (decimal spelling) denotes
`(N, N)`, `N-` denotes `(N, INT_MAX)` (the source's "unbounded" sentinel),
`-M` denotes `(1, M)`, `N-M` denotes `(N, M)`; `in_range` holds iff the
position lies in at least one stored interval; and after parsing `2,4-6,8-`,
membership holds exactly for 2, 4, 5, 6 and every representable position
`>= 8` (positions are C `int`s, hence at most `INT_MAX`), and fails for
1, 3 and 7. -/
theorem c4_selector_interval_semantics :
    (∀ n : Nat, parse_token (natChars n) = ⟨(n : Int), (n : Int)⟩) ∧
    (∀ n : Nat, parse_token (natChars n ++ ['-']) = ⟨(n : Int), intMax⟩) ∧
    (∀ m : Nat, parse_token ('-' :: natChars m) = ⟨1, (m : Int)⟩) ∧
    (∀ n m : Nat, parse_token (natChars n ++ '-' :: natChars m) = ⟨(n : Int), (m : Int)⟩) ∧
    (∀ (rs : List Range) (p : Int),
      in_range rs p = true ↔ ∃ r ∈ rs, r.start ≤ p ∧ p ≤ r.stop) ∧
    (∀ p : Int, 1 ≤ p → p ≤ intMax →
      (in_range ((parse_ranges ['2', ',', '4', '-', '6', ',', '8', '-']).getD []) p = true ↔
        (p = 2 ∨ (4 ≤ p ∧ p ≤ 6) ∨ 8 ≤ p))) := by
  refine ⟨parse_token_plain, parse_token_open, parse_token_neg, parse_token_pair,
    in_range_iff, fun p h1 h2 => ?_⟩
  have hpr : (parse_ranges ['2', ',', '4', '-', '6', ',', '8', '-']).getD []
      = [⟨2, 2⟩, ⟨4, 6⟩, ⟨8, intMax⟩] := by decide
  rw [hpr]
  simp only [in_range, List.any_cons, List.any_nil, Bool.or_eq_true,
    decide_eq_true_eq, Bool.false_eq_true, or_false]
  unfold intMax at h2 ⊢
  omega

/-- Witness for C4 at position 5 of selector `2,4-6,8-`. -/
theorem c4_selector_interval_semantics_witness :
    (1 : Int) ≤ 5 ∧ (5 : Int) ≤ intMax ∧
    (in_range ((parse_ranges ['2', ',', '4', '-', '6', ',', '8', '-']).getD []) 5 = true ↔
      ((5 : Int) = 2 ∨ ((4 : Int) ≤ 5 ∧ (5 : Int) ≤ 6) ∨ (8 : Int) ≤ 5)) :=
  ⟨by decide, by decide, c4_selector_interval_semantics.2.2.2.2.2 5 (by decide) (by decide)⟩

/-- Claim C1 (amended): in field mode the line is split at delimiter
occurrences with consecutive delimiters collapsed (`strtok` semantics): the
fields are exactly the nonempty fields of the split-on-every-occurrence
decomposition, in order of appearance (numbered 1..N in that order), so
leading, trailing and consecutive delimiters contribute no empty fields; in
particular `a,,b` has exactly the two fields `a`, `b`. -/
theorem c1_fields_are_collapsed_split :
    (∀ (l : List Char) (d : Char),
      strtokSplit (fun c => c == d) l
        = (everySplit (fun c => c == d) l).filter (fun f => !f.isEmpty)) ∧
    strtokSplit (fun c => c == ',') ['a', ',', ',', 'b'] = [['a'], ['b']] :=
  ⟨fun l d => strtokSplit_eq_filter _ l, by decide⟩

/-- Claim C2: in field mode with delimiter `,` on line `a,b,c`, selector `1,3`
emits `a,c`, selector `2` emits `b`, and selector `5` selects nothing, so the
output for that line is empty (by the zero-fields-selected rule, not even the
terminator is written, so the emitted byte sequence is empty). -/
theorem c2_field_mode_round_trip :
    cutFieldsEmit ['a', ',', 'b', ',', 'c'] ((parse_ranges ['1', ',', '3']).getD [])
      ',' false '\n' = ['a', ',', 'c', '\n'] ∧
    cutFieldsEmit ['a', ',', 'b', ',', 'c'] ((parse_ranges ['2']).getD [])
      ',' false '\n' = ['b', '\n'] ∧
    cutFieldsEmit ['a', ',', 'b', ',', 'c'] ((parse_ranges ['5']).getD [])
      ',' false '\n' = [] :=
  ⟨by decide, by decide, by decide⟩

/-- Claim C3: terminator asymmetry. In byte mode every input line emits a
(possibly empty) projection followed by exactly one configured terminator
(the terminator is `\n` or NUL, neither of which can occur in the projected
bytes); in field mode, a line that contains the delimiter but in which no
field position is selected emits nothing at all — no bytes and no
terminator. -/
theorem c3_terminator_asymmetry :
    (∀ (raw : List Char) (rs : List Range) (term : Char), (term = '\n' ∨ term = nulChar) →
      ∃ r, cutBytesEmit raw rs term = r ++ [term] ∧ term ∉ r) ∧
    (∀ (line : List Char) (rs : List Range) (d : Char) (supp : Bool) (term : Char),
      strchrFound (stripNewline line) d = true →
      (∀ i : Nat, i < (strtokSplit (fun c => c == d) (cstr (stripNewline line))).length →
        in_range rs (1 + (i : Int)) = false) →
      cutFieldsEmit line rs d supp term = []) := by
  constructor
  · intro raw rs term hterm
    refine ⟨cutBytesProj rs raw 1, rfl, fun hmem => ?_⟩
    have := cutBytesProj_mem rs raw 1 term hmem
    rcases hterm with rfl | rfl
    · exact this.1 rfl
    · exact this.2 rfl
  · intro line rs d supp term hfound hnone
    have hsel : selectFields rs (strtokSplit (fun c => c == d) (cstr (stripNewline line))) 1
        = [] := by
      refine selectFields_eq_nil rs _ 1 (fun i hi => ?_)
      exact hnone i hi
    simp only [cutFieldsEmit, hfound, if_true, hsel, List.isEmpty_nil]

/-- Witness for C3: byte mode on line `a` with an empty range set still emits
the terminator; field mode on `a,b` with selector `5` emits nothing. -/
theorem c3_terminator_asymmetry_witness :
    (∃ r, cutBytesEmit ['a'] [] '\n' = r ++ ['\n'] ∧ '\n' ∉ r) ∧
    cutFieldsEmit ['a', ',', 'b'] ((parse_ranges ['5']).getD []) ',' false '\n' = [] :=
  ⟨c3_terminator_asymmetry.1 ['a'] [] '\n' (Or.inl rfl),
   c3_terminator_asymmetry.2 ['a', ',', 'b'] ((parse_ranges ['5']).getD []) ',' false '\n'
     (by decide) (by decide)⟩

/-- Claim C5 — counterexample. The claim says byte mode with the full-line
selector `1-` reproduces every input line exactly; a line with an embedded NUL
refutes it, because the byte scanner stops at the first NUL: the line
`a<NUL>b` projects to `a`, not to itself. -/
theorem c5_counterexample :
    cutBytesEmit ['a', Char.ofNat 0, 'b'] ((parse_ranges ['1', '-']).getD []) '\n'
      = ['a', '\n'] ∧
    cutBytesEmit ['a', Char.ofNat 0, 'b'] ((parse_ranges ['1', '-']).getD []) '\n'
      ≠ ['a', Char.ofNat 0, 'b', '\n'] :=
  ⟨by decide, by decide⟩

/-- Claim C5 (amended): for every input line whose content contains no NUL
byte (and, positions being C `int`s, whose length is at most `INT_MAX`),
projecting in byte mode with the full-line selector `1-` reproduces the line
content exactly — both for a newline-terminated line and for a final
unterminated line. -/
theorem c5_full_range_id :
    ∀ (c : List Char) (term : Char), nulChar ∉ c → '\n' ∉ c →
      (c.length : Int) ≤ intMax →
      cutBytesEmit (c ++ ['\n']) ((parse_ranges ['1', '-']).getD []) term = c ++ [term] ∧
      cutBytesEmit c ((parse_ranges ['1', '-']).getD []) term = c ++ [term] := by
  intro c term hnul hnl hlen
  have hok : ∀ x ∈ c, x ≠ '\n' ∧ x ≠ nulChar :=
    fun x hx => ⟨fun h => hnl (h ▸ hx), fun h => hnul (h ▸ hx)⟩
  have hfull : selectBytes ((parse_ranges ['1', '-']).getD []) c 1 = c :=
    selectBytes_full c 1 (by omega) (by omega)
  constructor
  · unfold cutBytesEmit
    rw [cutBytesProj_append _ _ _ _ hok, cutBytesProj_stop _ _ _ _ (Or.inl rfl),
      hfull, List.append_nil]
  · unfold cutBytesEmit
    have h2 : cutBytesProj ((parse_ranges ['1', '-']).getD []) c 1
        = selectBytes ((parse_ranges ['1', '-']).getD []) c 1 := by
      have := cutBytesProj_append ((parse_ranges ['1', '-']).getD []) c [] 1 hok
      simpa [cutBytesProj] using this
    rw [h2, hfull]

/-- Witness for C5 on the line `ab`. -/
theorem c5_full_range_id_witness :
    cutBytesEmit ['a', 'b', '\n'] ((parse_ranges ['1', '-']).getD []) '\n'
      = ['a', 'b', '\n'] ∧
    cutBytesEmit ['a', 'b'] ((parse_ranges ['1', '-']).getD []) '\n' = ['a', 'b', '\n'] :=
  c5_full_range_id ['a', 'b'] '\n' (by decide) (by decide) (by decide)

/-- Claim C6 — counterexample. The claim says a no-delimiter line is emitted
verbatim when `-s` is not set; a line with an embedded NUL refutes it: the
line `a<NUL>b` contains no `,`, but `printf %s` stops at the NUL and only `a`
is emitted. -/
theorem c6_counterexample :
    (',' ∉ ['a', Char.ofNat 0, 'b']) ∧
    cutFieldsEmit ['a', Char.ofNat 0, 'b'] ((parse_ranges ['1']).getD []) ',' false '\n'
      = ['a', '\n'] ∧
    cutFieldsEmit ['a', Char.ofNat 0, 'b'] ((parse_ranges ['1']).getD []) ',' false '\n'
      ≠ ['a', Char.ofNat 0, 'b', '\n'] :=
  ⟨by decide, by decide, by decide⟩

/-- Claim C6 (amended): in field mode, for every input line containing no
occurrence of the (non-NUL) delimiter: with suppression the line produces no
output at all; without suppression the line is emitted as its prefix up to
the first NUL byte (its C-string view `cstr`) followed by the terminator —
for a line containing no NUL, that prefix is the entire line, i.e. verbatim.
Stated both for an unterminated line and for a newline-terminated one. -/
theorem c6_no_delim_lines :
    ∀ (line : List Char) (rs : List Range) (d : Char) (term : Char),
      d ≠ nulChar → d ∉ line → '\n' ∉ line →
      (cutFieldsEmit line rs d true term = [] ∧
       cutFieldsEmit (line ++ ['\n']) rs d true term = [] ∧
       cutFieldsEmit line rs d false term = cstr line ++ [term] ∧
       cutFieldsEmit (line ++ ['\n']) rs d false term = cstr line ++ [term] ∧
       (nulChar ∉ line → cstr line = line)) := by
  intro line rs d term hdnul hdmem hnl
  have hstrip1 : stripNewline line = line := stripNewline_of_no_newline line hnl
  have hstrip2 : stripNewline (line ++ ['\n']) = line := stripNewline_concat_newline line
  have hfound : strchrFound line d = false := strchrFound_false_of_not_mem line d hdnul hdmem
  refine ⟨?_, ?_, ?_, ?_, fun hnul => cstr_of_no_nul line hnul⟩
  · simp only [cutFieldsEmit, hstrip1, hfound, Bool.false_eq_true, if_false, if_true]
  · simp only [cutFieldsEmit, hstrip2, hfound, Bool.false_eq_true, if_false, if_true]
  · simp only [cutFieldsEmit, hstrip1, hfound, Bool.false_eq_true, if_false]
  · simp only [cutFieldsEmit, hstrip2, hfound, Bool.false_eq_true, if_false]

/-- Witness for C6 on the NUL-containing line `a<NUL>b` (emitted truncated at
the NUL) and the NUL-free line `abc` (emitted verbatim), delimiter `,`. -/
theorem c6_no_delim_lines_witness :
    cutFieldsEmit ['a', Char.ofNat 0, 'b'] ((parse_ranges ['1']).getD []) ',' true '\n'
      = [] ∧
    cutFieldsEmit ['a', Char.ofNat 0, 'b'] ((parse_ranges ['1']).getD []) ',' false '\n'
      = cstr ['a', Char.ofNat 0, 'b'] ++ ['\n'] ∧
    cutFieldsEmit ['a', 'b', 'c'] ((parse_ranges ['1']).getD []) ',' false '\n'
      = cstr ['a', 'b', 'c'] ++ ['\n'] ∧
    cstr ['a', 'b', 'c'] = ['a', 'b', 'c'] := by
  have h1 := c6_no_delim_lines ['a', Char.ofNat 0, 'b'] ((parse_ranges ['1']).getD []) ',' '\n'
    (by decide) (by decide) (by decide)
  have h2 := c6_no_delim_lines ['a', 'b', 'c'] ((parse_ranges ['1']).getD []) ',' '\n'
    (by decide) (by decide) (by decide)
  exact ⟨h1.1, h1.2.2.1, h2.2.2.1, h2.2.2.2.2 (by decide)⟩

/-- Claim C10: in byte mode, scanning stops at the first NUL inside the line:
whatever follows an embedded NUL is never emitted, whatever the range set
selects; the output for the line is exactly the output for the prefix before
the NUL, and in particular still ends with the line terminator. -/
theorem c10_nul_stops_byte_scan :
    ∀ (pre post : List Char) (rs : List Range) (term : Char),
      (∀ x ∈ pre, x ≠ '\n' ∧ x ≠ nulChar) →
      cutBytesEmit (pre ++ nulChar :: post) rs term = cutBytesEmit pre rs term := by
  intro pre post rs term hpre
  unfold cutBytesEmit
  rw [cutBytesProj_append _ _ _ _ hpre, cutBytesProj_stop _ _ _ _ (Or.inr rfl)]
  have h2 : cutBytesProj rs pre 1 = selectBytes rs pre 1 := by
    have := cutBytesProj_append rs pre [] 1 hpre
    simpa [cutBytesProj] using this
  rw [h2, List.append_nil]

/-- Witness for C10: the selected position 2 lies beyond the NUL in `a<NUL>b`
and is not emitted. -/
theorem c10_nul_stops_byte_scan_witness :
    cutBytesEmit (['a'] ++ Char.ofNat 0 :: ['b']) ((parse_ranges ['2']).getD []) '\n'
      = cutBytesEmit ['a'] ((parse_ranges ['2']).getD []) '\n' :=
  c10_nul_stops_byte_scan ['a'] ['b'] ((parse_ranges ['2']).getD []) '\n' (by decide)

/-- Claim C7: the multi-file driver emits, in order, the full projected output
of every source that opens (a source that fails to open contributes nothing
to the output, is counted as one per-source failure and processing
continues), and the overall exit status is not success whenever at least one
source failed to open. -/
theorem c7_driver_per_source_errors :
    (∀ (cfg : CutConfig) (srcs : List (Option (List Char))),
      (processSources cfg srcs).1 = ((srcs.filterMap id).map (streamEmit cfg)).flatten ∧
      (processSources cfg srcs).2 = srcs.countP (fun s => s.isNone)) ∧
    (∀ (opts : List COpt) (srcs : List (Option (List Char))),
      none ∈ srcs → (cut_builtin opts srcs).1 ≠ EXECUTION_SUCCESS) := by
  constructor
  · intro cfg srcs
    rw [processSources_spec]
    exact ⟨rfl, rfl⟩
  · intro opts srcs hmem
    have hpos : 0 < srcs.countP (fun s => s.isNone) :=
      List.countP_pos_iff.mpr ⟨none, hmem, rfl⟩
    rcases cut_builtin_status opts srcs with h | h <;> rw [h]
    · simp [EX_USAGE, EXECUTION_SUCCESS]
    · rw [if_neg (by omega)]
      simp [EXECUTION_FAILURE, EXECUTION_SUCCESS]

/-- Witness for C7: one unreadable source makes the exit status non-success. -/
theorem c7_driver_per_source_errors_witness :
    (cut_builtin [COpt.b ['1']] [none]).1 ≠ EXECUTION_SUCCESS :=
  c7_driver_per_source_errors.2 [COpt.b ['1']] [none] (List.mem_singleton.mpr rfl)

/-- Claim C8: `-z` changes only the output terminator. The full byte stream
produced with terminator NUL is the default-terminator stream with each
emitted newline terminator replaced by NUL (emitted line content never
contains a newline, so the substitution touches exactly the terminators);
input splitting is the same `getline` decomposition in both cases, a
decomposition at newline boundaries whose chunks concatenate back to the
input; and every line record emitted under `-z` is either absent (field-mode
suppression cases) or ends in NUL with no newline byte in the content before
it. -/
theorem c8_z_only_output_terminator :
    ∀ (mode : Nat) (rs : List Range) (d : Char) (supp : Bool) (input : List Char),
      streamEmit ⟨mode, rs, d, supp, nulChar⟩ input
        = (streamEmit ⟨mode, rs, d, supp, '\n'⟩ input).map termSwap ∧
      (splitLinesRaw input).flatten = input ∧
      (∀ l ∈ splitLinesRaw input,
        lineEmit ⟨mode, rs, d, supp, nulChar⟩ l = [] ∨
        ∃ r, lineEmit ⟨mode, rs, d, supp, nulChar⟩ l = r ++ [nulChar] ∧ '\n' ∉ r) := by
  intro mode rs d supp input
  have hlines : ∀ l ∈ splitLinesRaw input, '\n' ∉ stripNewline l :=
    splitAux_newline_free input [] (fun x hx => absurd hx (List.not_mem_nil x))
  refine ⟨?_, ?_, ?_⟩
  · unfold streamEmit
    rw [List.map_flatten, List.map_map]
    congr 1
    refine List.map_congr_left (fun l hl => ?_)
    exact lineEmit_termSwap mode rs d supp l (hlines l hl)
  · simpa using splitAux_flatten input []
  · intro l hl
    exact lineEmit_z_shape mode rs d supp l (hlines l hl)

/-- Witness for C8 on the line `a` of input `a<LF>b` in byte mode. -/
theorem c8_z_only_output_terminator_witness :
    lineEmit ⟨98, (parse_ranges ['1']).getD [], '\t', false, nulChar⟩ ['a', '\n'] = [] ∨
    ∃ r, lineEmit ⟨98, (parse_ranges ['1']).getD [], '\t', false, nulChar⟩ ['a', '\n']
      = r ++ [nulChar] ∧ '\n' ∉ r :=
  (c8_z_only_output_terminator 98 ((parse_ranges ['1']).getD []) '\t' false
    ['a', '\n', 'b']).2.2 ['a', '\n'] (by decide)

/-- Claim C9: whenever no mode flag (`-b`/`-c`/`-f`) is given, or more than
one is given, or some `-d` argument is not exactly one character, `cut_builtin`
returns the dedicated usage-error status `EX_USAGE` and writes no output. -/
theorem c9_usage_errors :
    ∀ (opts : List COpt) (srcs : List (Option (List Char))),
      (opts.countP isModeFlag = 0 ∨ 2 ≤ opts.countP isModeFlag ∨
        ∃ o ∈ opts, isBadDelim o = true) →
      cut_builtin opts srcs = (EX_USAGE, []) := by
  intro opts srcs h
  rcases h with h0 | h2 | ⟨o, hom, hbad⟩
  · rcases optLoop_no_mode opts initOptState h0 with hnone | ⟨st', hsome, hmode⟩
    · simp [cut_builtin, hnone]
    · have hm0 : st'.mode = 0 := by rw [hmode]; rfl
      simp [cut_builtin, hsome, hm0]
  · have hn := optLoop_mode_err opts initOptState (Or.inl ⟨rfl, h2⟩)
    simp [cut_builtin, hn]
  · have hn := optLoop_bad_delim opts initOptState o hom hbad
    simp [cut_builtin, hn]

/-- Witness for C9: no mode flag at all is a usage error with empty output. -/
theorem c9_usage_errors_witness :
    cut_builtin [] [some ['a', '\n']] = (EX_USAGE, []) :=
  c9_usage_errors [] [some ['a', '\n']] (Or.inl (by decide))

end Cut
